import Mathlib

/-!
Verification of the `UnrealConfigParser` line-oriented INI editor from
`dist/manage.py` of the VEIN-Dedicated-Server repository.

Python strings are modelled as lists of characters (`PyStr`); the parser's
`content` list of physical lines becomes `List PyStr`.  Every operation of the
class is translated function-by-function from the Python source; the helpers
below model the Python string primitives the source uses (`str.strip`,
`str.startswith`, `in`, `split('=', 1)`, slicing).
-/

namespace VeinConfig

/-- A Python string: a list of characters. -/
abbrev PyStr := List Char

/-- Characters removed by Python's `str.strip()` with no argument. -/
def isPySpace (c : Char) : Bool :=
  c == ' ' || c == '\t' || c == '\n' || c == '\r' || c == '\x0b' || c == '\x0c'

/-- Python `s.lstrip()`: drop leading whitespace. -/
def lstrip (s : PyStr) : PyStr := s.dropWhile isPySpace

/-- Python `s.rstrip()`: drop trailing whitespace. -/
def rstrip : PyStr → PyStr
  | [] => []
  | c :: rest =>
    let r := rstrip rest
    if r.isEmpty && isPySpace c then [] else c :: r

/-- Python `s.strip()`: drop whitespace at both ends. -/
def pyStrip (s : PyStr) : PyStr := rstrip (lstrip s)

/-- Python `s.startswith(c)` for a one-character prefix. -/
def headIs (s : PyStr) (c : Char) : Bool := s.head? == some c

/-- Python `s.endswith(c)` for a one-character suffix. -/
def lastIs (s : PyStr) (c : Char) : Bool := s.getLast? == some c

/-- Python `s[1:]`. -/
def tail1 (s : PyStr) : PyStr := s.drop 1

/-- Python `s[1:-1]`. -/
def sliceInterior (s : PyStr) : PyStr := (s.drop 1).dropLast

/-- Python `sub in s` (substring containment; the empty string is in every string). -/
def containsSub (s sub : PyStr) : Bool :=
  match s with
  | [] => sub.isEmpty
  | c :: t => sub.isPrefixOf (c :: t) || containsSub t sub

/-- Python `s.split('=', 1)` for a string known to contain `'='`:
the part before the first `'='` and the part after it. -/
def splitEq1 (s : PyStr) : PyStr × PyStr :=
  (s.takeWhile (· != '='), (s.dropWhile (· != '=')).drop 1)

/-- The trimmed key of `stripped.split('=', 1)` — Python
`current_key, value = map(str.strip, stripped.split('=', 1))`. -/
def keyOf (s : PyStr) : PyStr := pyStrip (splitEq1 s).1

/-- The trimmed value of `stripped.split('=', 1)`. -/
def valOf (s : PyStr) : PyStr := pyStrip (splitEq1 s).2

/-- The newline character as a one-character string. -/
def nlStr : PyStr := ['\n']

/-- `UnrealConfigParser.is_section` from `dist/manage.py`:
the line starts with `[`, ends with `]`, and the trimmed interior equals
the section name. -/
def is_section (line sec : PyStr) : Bool :=
  headIs line '[' && lastIs line ']' && (pyStrip (sliceInterior line) == sec)

/-- The section-membership state update shared by the scanning loops of the
source: a matching header enters the section, any other `[...]`-shaped trimmed
line leaves it, and every other line keeps the current state. -/
def stdStep (sec : PyStr) (inSec : Bool) (line : PyStr) : Bool :=
  let stripped := pyStrip line
  if is_section stripped sec then true
  else if headIs stripped '[' && lastIs stripped ']' then false
  else inSec

/-- In-memory state of `UnrealConfigParser`: the list of physical lines and
the `changed` flag. -/
structure UnrealConfigParser where
  content : List PyStr
  changed : Bool
  deriving DecidableEq, Repr

/-- The common loop skeleton of the fallible mutators of the source
(`remove_key`, `replace_value_with_same_key`, `comment_key`, `uncomment_key`
and the substring variants): walk the lines updating the section state with
`step`; at the first line on which `act` fires, emit its replacement lines and
copy the remainder verbatim (the Python loops guard their whole body with
`if not exists`). Returns the rewritten lines and the `exists` flag. -/
def scanOnce (step : Bool → PyStr → Bool) (act : Bool → PyStr → Option (List PyStr)) :
    Bool → List PyStr → List PyStr × Bool
  | _, [] => ([], false)
  | inSec, line :: rest =>
    let s1 := step inSec line
    match act s1 line with
    | some out => (out ++ rest, true)
    | none =>
      let r := scanOnce step act s1 rest
      (line :: r.1, r.2)

/-- Match/rewrite of `remove_key`: first uncommented in-section entry whose
trimmed key equals `key` is dropped. -/
def removeKeyAct (key : PyStr) (inSec : Bool) (line : PyStr) : Option (List PyStr) :=
  let stripped := pyStrip line
  if inSec && stripped.contains '=' && !(headIs stripped ';' || headIs stripped '#')
      && (keyOf stripped == key) then
    some []
  else none

/-- `UnrealConfigParser.remove_key`. -/
def remove_key (p : UnrealConfigParser) (sec key : PyStr) : UnrealConfigParser × Bool :=
  let r := scanOnce (stdStep sec) (removeKeyAct key) false p.content
  if r.2 then (⟨r.1, true⟩, true) else (p, false)

/-- Match/rewrite of `remove_key_by_substring_search`. -/
def removeBySubAct (sub : PyStr) (searchInComment : Bool) (inSec : Bool) (line : PyStr) :
    Option (List PyStr) :=
  let stripped := pyStrip line
  if inSec && stripped.contains '=' then
    let search := !((headIs stripped ';' || headIs stripped '#') && !searchInComment)
    if search && containsSub stripped sub then some [] else none
  else none

/-- `UnrealConfigParser.remove_key_by_substring_search`. -/
def remove_key_by_substring_search (p : UnrealConfigParser) (sec sub : PyStr)
    (searchInComment : Bool) : UnrealConfigParser × Bool :=
  let r := scanOnce (stdStep sec) (removeBySubAct sub searchInComment) false p.content
  if r.2 then (⟨r.1, true⟩, true) else (p, false)

/-- Match/rewrite of `replace_value_with_same_key`: the matched line becomes
`key=new_value\n` (or `key = new_value\n` with `spacing`). -/
def replaceValueAct (key newValue : PyStr) (spacing : Bool) (inSec : Bool) (line : PyStr) :
    Option (List PyStr) :=
  let stripped := pyStrip line
  if inSec && stripped.contains '=' && !(headIs stripped ';' || headIs stripped '#')
      && (keyOf stripped == key) then
    some [if spacing then key ++ [' ', '=', ' '] ++ newValue ++ nlStr
          else key ++ '=' :: (newValue ++ nlStr)]
  else none

/-- `UnrealConfigParser.replace_value_with_same_key`. -/
def replace_value_with_same_key (p : UnrealConfigParser) (sec key newValue : PyStr)
    (spacing : Bool) : UnrealConfigParser × Bool :=
  let r := scanOnce (stdStep sec) (replaceValueAct key newValue spacing) false p.content
  if r.2 then (⟨r.1, true⟩, true) else (p, false)

/-- Match/rewrite of `comment_key`: the matched raw line gets a `;` prefix. -/
def commentKeyAct (key : PyStr) (inSec : Bool) (line : PyStr) : Option (List PyStr) :=
  let stripped := pyStrip line
  if inSec && stripped.contains '=' && !(headIs stripped ';' || headIs stripped '#')
      && (keyOf stripped == key) then
    some [';' :: line]
  else none

/-- `UnrealConfigParser.comment_key`. -/
def comment_key (p : UnrealConfigParser) (sec key : PyStr) : UnrealConfigParser × Bool :=
  let r := scanOnce (stdStep sec) (commentKeyAct key) false p.content
  if r.2 then (⟨r.1, true⟩, true) else (p, false)

/-- Match/rewrite of `uncomment_key`: a commented in-section entry whose key
matches is replaced by `stripped[1:].strip() + '\n'`. -/
def uncommentKeyAct (key : PyStr) (inSec : Bool) (line : PyStr) : Option (List PyStr) :=
  let stripped := pyStrip line
  if inSec && headIs stripped ';' && stripped.contains '=' then
    let unc := pyStrip (tail1 stripped)
    if keyOf unc == key then some [unc ++ nlStr] else none
  else none

/-- `UnrealConfigParser.uncomment_key`. -/
def uncomment_key (p : UnrealConfigParser) (sec key : PyStr) : UnrealConfigParser × Bool :=
  let r := scanOnce (stdStep sec) (uncommentKeyAct key) false p.content
  if r.2 then (⟨r.1, true⟩, true) else (p, false)

/-- Match/rewrite of `set_value_by_substring_search`: the matched line becomes
`key=new_value\n`, the key taken from the matched line itself. -/
def setValueBySubAct (sub newValue : PyStr) (searchInComment : Bool) (inSec : Bool)
    (line : PyStr) : Option (List PyStr) :=
  let stripped := pyStrip line
  if inSec && stripped.contains '=' then
    let search := !((headIs stripped ';' || headIs stripped '#') && !searchInComment)
    if search && containsSub stripped sub then
      some [keyOf stripped ++ '=' :: (newValue ++ nlStr)]
    else none
  else none

/-- `UnrealConfigParser.set_value_by_substring_search`. -/
def set_value_by_substring_search (p : UnrealConfigParser) (sec sub newValue : PyStr)
    (searchInComment : Bool) : UnrealConfigParser × Bool :=
  let r := scanOnce (stdStep sec) (setValueBySubAct sub newValue searchInComment) false p.content
  if r.2 then (⟨r.1, true⟩, true) else (p, false)

/-- Match/rewrite of `comment_by_substring_search`: substring is searched in
the trimmed value only; the raw line gets a `;` prefix. -/
def commentBySubAct (sub : PyStr) (searchInComment : Bool) (inSec : Bool) (line : PyStr) :
    Option (List PyStr) :=
  let stripped := pyStrip line
  if inSec && stripped.contains '=' then
    let search := !((headIs stripped ';' || headIs stripped '#') && !searchInComment)
    if search && containsSub (valOf stripped) sub then some [';' :: line] else none
  else none

/-- `UnrealConfigParser.comment_by_substring_search`. -/
def comment_by_substring_search (p : UnrealConfigParser) (sec sub : PyStr)
    (searchInComment : Bool) : UnrealConfigParser × Bool :=
  let r := scanOnce (stdStep sec) (commentBySubAct sub searchInComment) false p.content
  if r.2 then (⟨r.1, true⟩, true) else (p, false)

/-- Match/rewrite of `uncomment_by_substring_search`: any trimmed line starting
with `;` (no `=` required) containing the substring in its full trimmed text is
replaced by `stripped[1:].strip() + '\n'`. -/
def uncommentBySubAct (sub : PyStr) (inSec : Bool) (line : PyStr) : Option (List PyStr) :=
  let stripped := pyStrip line
  if inSec && headIs stripped ';' then
    let unc := pyStrip (tail1 stripped)
    if containsSub stripped sub then some [unc ++ nlStr] else none
  else none

/-- `UnrealConfigParser.uncomment_by_substring_search`. -/
def uncomment_by_substring_search (p : UnrealConfigParser) (sec sub : PyStr) :
    UnrealConfigParser × Bool :=
  let r := scanOnce (stdStep sec) (uncommentBySubAct sub) false p.content
  if r.2 then (⟨r.1, true⟩, true) else (p, false)

/-- Python `s.replace(pat, rep)`: replace all non-overlapping occurrences,
left to right; an empty pattern inserts `rep` around every character. -/
def replaceAllAux : Nat → PyStr → PyStr → PyStr → PyStr
  | 0, s, _, _ => s
  | _ + 1, [], _, _ => []
  | fuel + 1, c :: rest, pat, rep =>
    if pat.isPrefixOf (c :: rest) then
      rep ++ replaceAllAux fuel ((c :: rest).drop pat.length) pat rep
    else
      c :: replaceAllAux fuel rest pat rep

/-- Python `s.replace(pat, rep)`. -/
def replaceAll (s pat rep : PyStr) : PyStr :=
  if pat.isEmpty then rep ++ s.foldr (fun c acc => c :: (rep ++ acc)) []
  else replaceAllAux s.length s pat rep

/-- Match/rewrite of `replace_value_by_substring_search`: textual replacement
over the whole trimmed line, then a newline is appended. -/
def replaceBySubAct (sub newSub : PyStr) (searchInComment : Bool) (inSec : Bool)
    (line : PyStr) : Option (List PyStr) :=
  let stripped := pyStrip line
  if inSec && stripped.contains '=' then
    let search := !((headIs stripped ';' || headIs stripped '#') && !searchInComment)
    if search && containsSub stripped sub then
      some [replaceAll stripped sub newSub ++ nlStr]
    else none
  else none

/-- `UnrealConfigParser.replace_value_by_substring_search`. -/
def replace_value_by_substring_search (p : UnrealConfigParser) (sec sub newSub : PyStr)
    (searchInComment : Bool) : UnrealConfigParser × Bool :=
  let r := scanOnce (stdStep sec) (replaceBySubAct sub newSub searchInComment) false p.content
  if r.2 then (⟨r.1, true⟩, true) else (p, false)

/-- Loop of `UnrealConfigParser.add_key`: the state is `in_section`; at every
line that is in-section and whose successor starts a new `[`-line (or that is
the last line), `key=value\n` is emitted before the line and the section state
resets.  Returns (updated lines, section_found, inserted-at-least-once). -/
def addKeyGo (sec key value : PyStr) : Bool → List PyStr → List PyStr × Bool × Bool
  | _, [] => ([], false, false)
  | inSec, line :: rest =>
    let stripped := pyStrip line
    let hit := is_section stripped sec
    let inSec1 := inSec || hit
    let boundary := match rest with
      | [] => true
      | r :: _ => headIs (pyStrip r) '['
    if inSec1 && boundary then
      let r := addKeyGo sec key value false rest
      ((key ++ '=' :: (value ++ nlStr)) :: line :: r.1, hit || r.2.1, true)
    else
      let r := addKeyGo sec key value inSec1 rest
      (line :: r.1, hit || r.2.1, r.2.2)

/-- `UnrealConfigParser.add_key`: if no header of the section was seen, a blank
`\n[section]\n` header block and the `key=value\n` line are appended instead. -/
def add_key (p : UnrealConfigParser) (sec key value : PyStr) : UnrealConfigParser :=
  let r := addKeyGo sec key value false p.content
  if r.2.1 then ⟨r.1, p.changed || r.2.2⟩
  else ⟨r.1 ++ ['\n' :: '[' :: (sec ++ [']', '\n']), key ++ '=' :: (value ++ nlStr)], true⟩

/-- Loop of `UnrealConfigParser.add_key_after_match`.  State: `in_section` and
`found`.  The broken exit test of the source (`is_section(line, section)` on
the raw line together with `stripped[1:-1] != section`) is translated verbatim.
Returns (updated lines, section_found, found). -/
def addKeyAfterMatchGo (sec sub newLine : PyStr) :
    Bool → Bool → List PyStr → List PyStr × Bool × Bool
  | _, fd, [] => ([], false, fd)
  | inSec, fd, line :: rest =>
    let stripped := pyStrip line
    let hit := is_section stripped sec
    let inSec1 := inSec || hit
    let isMatch := inSec1 && containsSub stripped sub && !fd
    let fd1 := fd || isMatch
    let inSec2 := if inSec1 && is_section line sec && !(sliceInterior stripped == sec)
      then false else inSec1
    let r := addKeyAfterMatchGo sec sub newLine inSec2 fd1 rest
    ((if isMatch then [line, newLine ++ nlStr] else [line]) ++ r.1, hit || r.2.1, r.2.2)

/-- `UnrealConfigParser.add_key_after_match`. -/
def add_key_after_match (p : UnrealConfigParser) (sec sub newLine : PyStr) :
    UnrealConfigParser :=
  let r := addKeyAfterMatchGo sec sub newLine false false p.content
  if r.2.1 then ⟨r.1, p.changed || r.2.2⟩
  else ⟨r.1 ++ ['\n' :: '[' :: (sec ++ [']', '\n']), newLine ++ nlStr], true⟩

/-- Loop of `UnrealConfigParser.get_key`: leading `;` is stripped before the
`key=value` parse, so commented entries are considered too; the first parsed
key equal to `key` returns its trimmed value. -/
def getKeyGo (sec key : PyStr) : Bool → List PyStr → Option PyStr
  | _, [] => none
  | inSec, line :: rest =>
    let stripped := pyStrip line
    let inSec1 := stdStep sec inSec line
    if inSec1 && stripped.contains '=' then
      let unc := if headIs stripped ';' then pyStrip (tail1 stripped) else stripped
      if pyStrip (splitEq1 unc).1 == key then some (pyStrip (splitEq1 unc).2)
      else getKeyGo sec key inSec1 rest
    else getKeyGo sec key inSec1 rest

/-- `UnrealConfigParser.get_key`. -/
def get_key (p : UnrealConfigParser) (sec key default_ : PyStr) : PyStr :=
  (getKeyGo sec key false p.content).getD default_

/-- Loop of `UnrealConfigParser.set_key`.  There is no `found` guard, so every
matching line is rewritten; a commented match is replaced by the bare string
`;` (the Python source evaluates `';' if commented else '' + f"{key}={value}\n"`,
and the conditional binds last); `changed` is overwritten at every match with
the result of comparing the previous trimmed value against the new one.
State: `in_section`, `found`, `changed`. -/
def setKeyGo (sec key value : PyStr) :
    Bool → Bool → Bool → List PyStr → List PyStr × Bool × Bool
  | _, fd, ch, [] => ([], fd, ch)
  | inSec, fd, ch, line :: rest =>
    let stripped := pyStrip line
    let inSec1 := stdStep sec inSec line
    if inSec1 && stripped.contains '=' then
      let commented := headIs stripped ';'
      let unc := if commented then pyStrip (tail1 stripped) else stripped
      if pyStrip (splitEq1 unc).1 == key then
        let newLine : PyStr := if commented then [';'] else key ++ '=' :: (value ++ nlStr)
        let r := setKeyGo sec key value inSec1 true (!(pyStrip (splitEq1 unc).2 == value)) rest
        (newLine :: r.1, r.2.1, r.2.2)
      else
        let r := setKeyGo sec key value inSec1 fd ch rest
        (line :: r.1, r.2.1, r.2.2)
    else
      let r := setKeyGo sec key value inSec1 fd ch rest
      (line :: r.1, r.2.1, r.2.2)

/-- `UnrealConfigParser.set_key`: rewrite in place when found, otherwise fall
back to `add_key` on the untouched content. -/
def set_key (p : UnrealConfigParser) (sec key value : PyStr) : UnrealConfigParser :=
  let r := setKeyGo sec key value false false p.changed p.content
  if r.2.1 then ⟨r.1, r.2.2⟩ else add_key p sec key value

/-- `UnrealConfigParser.is_changed`. -/
def is_changed (p : UnrealConfigParser) : Bool := p.changed

/-- `UnrealConfigParser.is_empty`. -/
def is_empty (p : UnrealConfigParser) : Bool := p.content.isEmpty

/-- Python text-mode reading translates `\r\n` and lone `\r` to `\n`
(universal newlines); `read_file` opens the file with `open(path, 'r')`. -/
def univNewlines : List Char → List Char
  | [] => []
  | '\r' :: '\n' :: rest => '\n' :: univNewlines rest
  | '\r' :: rest => '\n' :: univNewlines rest
  | c :: rest => c :: univNewlines rest

/-- Python `file.readlines()`: split after every `\n`, keeping the terminator;
a trailing segment without `\n` becomes a final line. -/
def splitLinesAux (acc : List Char) : List Char → List PyStr
  | [] => if acc.isEmpty then [] else [acc.reverse]
  | c :: rest =>
    if c = '\n' then (acc.reverse ++ ['\n']) :: splitLinesAux [] rest
    else splitLinesAux (c :: acc) rest

/-- `UnrealConfigParser.read_file`, modelled on the raw bytes of an existing
file: text-mode newline translation, then `readlines`; `changed` is cleared.
The existence check and `FileNotFoundError` path carry no document state and
are outside the model. -/
def read_file (raw : List Char) : UnrealConfigParser :=
  ⟨splitLinesAux [] (univNewlines raw), false⟩

/-- Text written by `UnrealConfigParser.write_file`: `writelines` concatenates
the lines and Python text-mode writing expands every `\n` to `os.linesep` when
`newline_option` is `None`, to nothing different when it is `''` or `'\n'`,
and to the given string otherwise.  The path fix-up and directory creation of
the source do not affect the written text. -/
def write_file_text (lines : List PyStr) (newlineOpt : Option (List Char))
    (linesep : List Char) : List Char :=
  let sep := match newlineOpt with
    | none => linesep
    | some s => if s.isEmpty then ['\n'] else s
  (lines.flatten).flatMap (fun c => if c = '\n' then sep else [c])

/-- Shorthand turning a Lean string literal into the character-list model of a
Python string, for concrete documents in theorem statements. -/
def lit (s : String) : PyStr := s.data

/-- All fallible mutators commit through the same shape: the rewritten list is
installed (with `changed := true`) only when the scan found a match, otherwise
the parser is returned untouched. -/
theorem commit_all_or_nothing (p : UnrealConfigParser) (r : List PyStr × Bool) :
    (((if r.2 then ((⟨r.1, true⟩ : UnrealConfigParser), true) else (p, false))).2 = false →
      (if r.2 then ((⟨r.1, true⟩ : UnrealConfigParser), true) else (p, false)).1 = p)
    ∧ (((if r.2 then ((⟨r.1, true⟩ : UnrealConfigParser), true) else (p, false))).2 = true →
      (if r.2 then ((⟨r.1, true⟩ : UnrealConfigParser), true) else (p, false)).1.changed
        = true) := by
  rcases r with ⟨ls, e⟩
  cases e <;> simp

/-- The list of `(trimmed key, trimmed value)` pairs of every line considered
by the `get_key` scan: in-section lines containing `=`, a single leading `;`
stripped before the parse, in file order. -/
def entriesInSection (sec : PyStr) : Bool → List PyStr → List (PyStr × PyStr)
  | _, [] => []
  | inSec, line :: rest =>
    let stripped := pyStrip line
    let inSec1 := stdStep sec inSec line
    if inSec1 && stripped.contains '=' then
      (let unc := if headIs stripped ';' then pyStrip (tail1 stripped) else stripped
       (pyStrip (splitEq1 unc).1, pyStrip (splitEq1 unc).2) :: entriesInSection sec inSec1 rest)
    else entriesInSection sec inSec1 rest

/-- The `get_key` loop returns the value of the first considered entry whose
key matches, scanning in file order. -/
theorem getKeyGo_entries (s k : PyStr) (ls : List PyStr) : ∀ b : Bool,
    getKeyGo s k b ls
      = ((entriesInSection s b ls).filter (fun e => e.1 == k)).head?.map Prod.snd := by
  induction ls with
  | nil => intro b; simp [getKeyGo, entriesInSection]
  | cons line rest ih =>
    intro b
    simp only [getKeyGo, entriesInSection]
    split
    · split <;> simp_all [List.filter_cons] <;> split <;> simp_all
    · exact ih _

/-- C1 — counterexample.  On the document `"[A]\n;k=1\n"` the only line whose
parsed key is `k` is a commented entry; `set_key("A","k","2")` rewrites it to
the bare string `;`, so the following `get_key("A","k","dflt")` returns the
default `"dflt"`, not the stored value `"2"`.  This falsifies the claim that
`set_key` then `get_key` returns the set value for every document. -/
theorem c1_counterexample :
    get_key (set_key ⟨[lit "[A]\n", lit ";k=1\n"], false⟩ (lit "A") (lit "k") (lit "2"))
        (lit "A") (lit "k") (lit "dflt") = lit "dflt"
      ∧ lit "dflt" ≠ lit "2" := by
  constructor
  · decide
  · decide

/-- C2 — the code at the claimed failing input.  `set_key` has no first-match
guard: on `"[A]\nk=1\nk=2\n"`, `set_key("A","k","3")` rewrites BOTH entry
lines to `k=3\n` in a single call, mutating two physical lines, so the scan
does not stop after the first applied change. -/
theorem c2_set_key_rewrites_all_matches :
    (set_key ⟨[lit "[A]\n", lit "k=1\n", lit "k=2\n"], false⟩ (lit "A") (lit "k") (lit "3"))
        = ⟨[lit "[A]\n", lit "k=3\n", lit "k=3\n"], true⟩
      ∧ lit "k=3\n" ≠ lit "k=1\n" ∧ lit "k=3\n" ≠ lit "k=2\n" := by
  refine ⟨by decide, by decide, by decide⟩

/-- C3 — the code at the claimed failing input.  `set_key` decides dirtiness
by comparing trimmed values only and overwrites the flag: (a) on
`"[A]\nk = 1\n"`, `set_key("A","k","1")` rewrites the line to `k=1\n` — the
text now differs from the loaded text — yet leaves `changed = false`; (b) on a
document whose dirty flag is already `true`, an equal-value `set_key` resets
`changed` to `false`. -/
theorem c3_dirty_flag_violations :
    ((set_key ⟨[lit "[A]\n", lit "k = 1\n"], false⟩ (lit "A") (lit "k") (lit "1"))
        = ⟨[lit "[A]\n", lit "k=1\n"], false⟩
      ∧ lit "k=1\n" ≠ lit "k = 1\n")
    ∧ (set_key ⟨[lit "[A]\n", lit "k=2\n"], true⟩ (lit "A") (lit "k") (lit "2")).changed
        = false := by
  refine ⟨⟨by decide, by decide⟩, by decide⟩

/-- C4 — counterexample.  `replace_value_with_same_key` with the value the key
already has reports success (`true`, dirty set), yet the line list is
byte-for-byte unchanged — no physical line was altered, falsifying
"whenever it returns true, at least one physical line was altered". -/
theorem c4_counterexample :
    replace_value_with_same_key ⟨[lit "[A]\n", lit "k=v\n"], false⟩
        (lit "A") (lit "k") (lit "v") false
      = (⟨[lit "[A]\n", lit "k=v\n"], true⟩, true) := by
  decide

/-- C5 — counterexample.  On `"[A]\nx=1\ny=2\n"` the next-header/EOF boundary
is detected by look-ahead while the current line is still pending, so
`add_key("A","k","v")` inserts `k=v\n` BEFORE the last line of the section,
not immediately before the next header / end-of-document as claimed. -/
theorem c5_counterexample :
    (add_key ⟨[lit "[A]\n", lit "x=1\n", lit "y=2\n"], false⟩ (lit "A") (lit "k") (lit "v"))
        = ⟨[lit "[A]\n", lit "x=1\n", lit "k=v\n", lit "y=2\n"], true⟩
      ∧ [lit "[A]\n", lit "x=1\n", lit "k=v\n", lit "y=2\n"]
        ≠ [lit "[A]\n", lit "x=1\n", lit "y=2\n", lit "k=v\n"] := by
  refine ⟨by decide, by decide⟩

/-- C6 — counterexample.  Reading translates `\r\n` (and lone `\r`) to `\n`,
and the default write expands `\n` to the platform separator, so a CRLF file
does not round-trip byte-for-byte under the default policy: with the POSIX
separator the bytes `"a\r\n"` come back as `"a\n"`, and with a CRLF separator
the bytes `"a\n"` come back as `"a\r\n"` — under no fixed platform separator is
every newline style preserved. -/
theorem c6_counterexample :
    (write_file_text (read_file (lit "a\r\n")).content none (lit "\n") = lit "a\n"
      ∧ lit "a\n" ≠ lit "a\r\n")
    ∧ (write_file_text (read_file (lit "a\n")).content none (lit "\r\n") = lit "a\r\n"
      ∧ lit "a\r\n" ≠ lit "a\n") := by
  refine ⟨⟨by decide, by decide⟩, ⟨by decide, by decide⟩⟩

/-- C7 — counterexample.  `uncomment_key` rebuilds the line as
`stripped[1:].strip() + '\n'`, so the leading whitespace of `" k=1\n"` is lost:
`comment_key` then `uncomment_key` both succeed but return `"k=1\n"`, not the
original line byte-for-byte. -/
theorem c7_counterexample :
    (comment_key ⟨[lit "[A]\n", lit " k=1\n"], false⟩ (lit "A") (lit "k"))
        = (⟨[lit "[A]\n", lit "; k=1\n"], true⟩, true)
      ∧ (uncomment_key ⟨[lit "[A]\n", lit "; k=1\n"], true⟩ (lit "A") (lit "k"))
        = (⟨[lit "[A]\n", lit "k=1\n"], true⟩, true)
      ∧ lit "k=1\n" ≠ lit " k=1\n" := by
  refine ⟨by decide, by decide, by decide⟩

/-- C9 — the code at the claimed failing input.  The section-exit test of
`add_key_after_match` compares the raw line (which still carries its `\n`)
with `is_section`, so it never fires and `in_section` stays `true` after the
section ends: on `"[A]\nx=1\n[B]\nfoo=2\n"`,
`add_key_after_match("A","foo","bar=3")` inserts `bar=3\n` after the line
`foo=2\n`, which belongs to section `[B]`, not `[A]`. -/
theorem c9_insert_in_wrong_section :
    add_key_after_match ⟨[lit "[A]\n", lit "x=1\n", lit "[B]\n", lit "foo=2\n"], false⟩
        (lit "A") (lit "foo") (lit "bar=3")
      = ⟨[lit "[A]\n", lit "x=1\n", lit "[B]\n", lit "foo=2\n", lit "bar=3\n"], true⟩ := by
  decide

/-- C8 — confirmed.  `get_key(section, key, default)` performs a linear scan
considering, while inside the named section, every line containing `=` whether
commented or not (a single leading `;` is stripped before parsing), returns
the trimmed value of the first line whose parsed key equals `key` (the scan
stops there), and returns `default` when the section is never entered or no
key matches; the document itself is not touched (`get_key` is a pure
function of the parser). -/
theorem c8_get_key_first_match (p : UnrealConfigParser) (s k d : PyStr) :
    get_key p s k d
      = (((entriesInSection s false p.content).filter (fun e => e.1 == k)).head?.map
          Prod.snd).getD d := by
  simp [get_key, getKeyGo_entries]

/-- C4 — amended.  For every fallible mutator (`remove_key`,
`replace_value_with_same_key`, `comment_key`, `uncomment_key` and the
substring variants): a `false` return leaves the parser — line list and dirty
flag — exactly as it was (no partial mutation), and a `true` return installs
the scan result and sets the dirty flag; a successful call need not alter any
byte (see the counterexample), so only the weaker "a match was found and
rewritten, dirty set" survives of "at least one physical line was altered". -/
theorem c4_all_or_nothing_amended :
    (∀ (p : UnrealConfigParser) (s k : PyStr),
      ((remove_key p s k).2 = false → (remove_key p s k).1 = p)
      ∧ ((remove_key p s k).2 = true → (remove_key p s k).1.changed = true))
    ∧ (∀ (p : UnrealConfigParser) (s k nv : PyStr) (sp : Bool),
      ((replace_value_with_same_key p s k nv sp).2 = false
        → (replace_value_with_same_key p s k nv sp).1 = p)
      ∧ ((replace_value_with_same_key p s k nv sp).2 = true
        → (replace_value_with_same_key p s k nv sp).1.changed = true))
    ∧ (∀ (p : UnrealConfigParser) (s k : PyStr),
      ((comment_key p s k).2 = false → (comment_key p s k).1 = p)
      ∧ ((comment_key p s k).2 = true → (comment_key p s k).1.changed = true))
    ∧ (∀ (p : UnrealConfigParser) (s k : PyStr),
      ((uncomment_key p s k).2 = false → (uncomment_key p s k).1 = p)
      ∧ ((uncomment_key p s k).2 = true → (uncomment_key p s k).1.changed = true))
    ∧ (∀ (p : UnrealConfigParser) (s sub : PyStr) (sc : Bool),
      ((remove_key_by_substring_search p s sub sc).2 = false
        → (remove_key_by_substring_search p s sub sc).1 = p)
      ∧ ((remove_key_by_substring_search p s sub sc).2 = true
        → (remove_key_by_substring_search p s sub sc).1.changed = true))
    ∧ (∀ (p : UnrealConfigParser) (s sub nv : PyStr) (sc : Bool),
      ((set_value_by_substring_search p s sub nv sc).2 = false
        → (set_value_by_substring_search p s sub nv sc).1 = p)
      ∧ ((set_value_by_substring_search p s sub nv sc).2 = true
        → (set_value_by_substring_search p s sub nv sc).1.changed = true))
    ∧ (∀ (p : UnrealConfigParser) (s sub : PyStr) (sc : Bool),
      ((comment_by_substring_search p s sub sc).2 = false
        → (comment_by_substring_search p s sub sc).1 = p)
      ∧ ((comment_by_substring_search p s sub sc).2 = true
        → (comment_by_substring_search p s sub sc).1.changed = true))
    ∧ (∀ (p : UnrealConfigParser) (s sub : PyStr),
      ((uncomment_by_substring_search p s sub).2 = false
        → (uncomment_by_substring_search p s sub).1 = p)
      ∧ ((uncomment_by_substring_search p s sub).2 = true
        → (uncomment_by_substring_search p s sub).1.changed = true))
    ∧ (∀ (p : UnrealConfigParser) (s sub ns : PyStr) (sc : Bool),
      ((replace_value_by_substring_search p s sub ns sc).2 = false
        → (replace_value_by_substring_search p s sub ns sc).1 = p)
      ∧ ((replace_value_by_substring_search p s sub ns sc).2 = true
        → (replace_value_by_substring_search p s sub ns sc).1.changed = true)) :=
  ⟨fun p _ _ => commit_all_or_nothing p _,
   fun p _ _ _ _ => commit_all_or_nothing p _,
   fun p _ _ => commit_all_or_nothing p _,
   fun p _ _ => commit_all_or_nothing p _,
   fun p _ _ _ => commit_all_or_nothing p _,
   fun p _ _ _ _ => commit_all_or_nothing p _,
   fun p _ _ _ => commit_all_or_nothing p _,
   fun p _ _ => commit_all_or_nothing p _,
   fun p _ _ _ _ => commit_all_or_nothing p _⟩

/-- Witness for C4: a no-match `remove_key` leaves the concrete parser
untouched, and a matching one sets the dirty flag. -/
theorem c4_witness :
    (remove_key ⟨[lit "[A]\n", lit "x=1\n"], false⟩ (lit "A") (lit "zz")).1
        = ⟨[lit "[A]\n", lit "x=1\n"], false⟩
      ∧ (remove_key ⟨[lit "[A]\n", lit "x=1\n"], false⟩ (lit "A") (lit "x")).1.changed
        = true :=
  ⟨(c4_all_or_nothing_amended.1 ⟨[lit "[A]\n", lit "x=1\n"], false⟩ (lit "A") (lit "zz")).1
      (by decide),
   (c4_all_or_nothing_amended.1 ⟨[lit "[A]\n", lit "x=1\n"], false⟩ (lit "A") (lit "x")).2
      (by decide)⟩

/-- Text-mode newline translation is the identity when the raw bytes contain
no carriage return. -/
theorem univNewlines_id : ∀ l : List Char, '\r' ∉ l → univNewlines l = l := by
  intro l
  induction l with
  | nil => intro _; rfl
  | cons c rest ih =>
    intro h
    have hc : c ≠ '\r' := fun e => h (e ▸ List.mem_cons_self c rest)
    have hr : '\r' ∉ rest := fun m => h (List.mem_cons_of_mem c m)
    cases rest with
    | nil => simp [univNewlines, hc]
    | cons d rest2 => simp [univNewlines, hc, ih hr]

/-- Splitting into terminator-preserving lines loses no byte: the flattening
of `readlines` is the original character stream. -/
theorem splitLinesAux_flatten : ∀ (l acc : List Char),
    (splitLinesAux acc l).flatten = acc.reverse ++ l := by
  intro l
  induction l with
  | nil =>
    intro acc
    by_cases h : acc.isEmpty
    · simp_all [splitLinesAux, List.isEmpty_iff]
    · simp_all [splitLinesAux]
  | cons c rest ih =>
    intro acc
    by_cases h : c = '\n'
    · subst h; simp [splitLinesAux, ih]
    · simp [splitLinesAux, h, ih]

/-- Expanding `\n` to itself is the identity on a character stream. -/
theorem flatMap_nl_id : ∀ l : List Char,
    (l.flatMap fun c => if c = '\n' then ['\n'] else [c]) = l := by
  intro l
  induction l with
  | nil => rfl
  | cons c rest ih =>
    by_cases h : c = '\n'
    · subst h; simp [ih]
    · simp [h, ih]

/-- C6 — amended.  `read_file` followed immediately by `write_file` with the
default newline policy reproduces the file byte-for-byte exactly when the
input's line terminators already are the platform separator (`\n` on the
POSIX systems this manager targets); CRLF or CR input is normalised by the
universal-newline translation of text-mode reading, so a differing newline
style is rewritten rather than preserved, whatever policy is requested at
write time (see the counterexample). -/
theorem c6_roundtrip_amended (raw : List Char) (h : '\r' ∉ raw) :
    write_file_text (read_file raw).content none ['\n'] = raw := by
  simp only [read_file, write_file_text, univNewlines_id raw h]
  rw [splitLinesAux_flatten raw []]
  simpa using flatMap_nl_id raw

/-- Witness for C6: a concrete LF-terminated file round-trips byte-for-byte. -/
theorem c6_witness :
    '\r' ∉ lit "ab\ncd\n"
      ∧ write_file_text (read_file (lit "ab\ncd\n")).content none ['\n']
        = lit "ab\ncd\n" :=
  ⟨by decide, c6_roundtrip_amended (lit "ab\ncd\n") (by decide)⟩

/-- A scan that found nothing copied every line verbatim. -/
theorem scanOnce_false {step : Bool → PyStr → Bool} {act : Bool → PyStr → Option (List PyStr)} :
    ∀ (ls : List PyStr) (b : Bool),
      (scanOnce step act b ls).2 = false → (scanOnce step act b ls).1 = ls := by
  intro ls
  induction ls with
  | nil => intro b _; rfl
  | cons line rest ih =>
    intro b h
    cases hact : act (step b line) line with
    | some out => simp [scanOnce, hact] at h
    | none =>
      simp only [scanOnce, hact] at h ⊢
      simpa using ih (step b line) h

/-- A scan over a prefix with no match continues over the suffix with the
folded section state. -/
theorem scanOnce_append {step : Bool → PyStr → Bool} {act : Bool → PyStr → Option (List PyStr)} :
    ∀ (xs ys : List PyStr) (b : Bool),
      (scanOnce step act b xs).2 = false →
      scanOnce step act b (xs ++ ys)
        = (xs ++ (scanOnce step act (xs.foldl step b) ys).1,
           (scanOnce step act (xs.foldl step b) ys).2) := by
  intro xs
  induction xs with
  | nil => intro ys b _; simp
  | cons x xs ih =>
    intro ys b h
    cases hact : act (step b x) x with
    | some out => simp [scanOnce, hact] at h
    | none =>
      simp only [scanOnce, hact] at h
      simp only [List.cons_append, scanOnce, hact, List.foldl_cons, List.append_eq]
      rw [ih ys (step b x) h]

/-- A scan whose first line matches replaces it and copies the rest. -/
theorem scanOnce_cons_match {step : Bool → PyStr → Bool}
    {act : Bool → PyStr → Option (List PyStr)} {b : Bool} {l : PyStr} {rest out : List PyStr}
    (h : act (step b l) l = some out) :
    scanOnce step act b (l :: rest) = (out ++ rest, true) := by
  simp [scanOnce, h]

/-- C10 — confirmed.  `uncomment_by_substring_search` matches the first
in-section line whose trimmed text starts with `;` and contains the substring
— no `=` is required, so a free-text comment qualifies — and rewrites it to
the whitespace-trimmed remainder after the `;` plus a single `\n`, reporting
success and setting the dirty flag. -/
theorem c10_uncomment_free_text (c0 : Bool) (s sub L : PyStr) (pre post : List PyStr)
    (h1 : (scanOnce (stdStep s) (uncommentBySubAct sub) false pre).2 = false)
    (h2 : stdStep s (pre.foldl (stdStep s) false) L = true)
    (h3 : headIs (pyStrip L) ';' = true)
    (h4 : containsSub (pyStrip L) sub = true) :
    uncomment_by_substring_search ⟨pre ++ L :: post, c0⟩ s sub
      = (⟨pre ++ (pyStrip (tail1 (pyStrip L)) ++ nlStr) :: post, true⟩, true) := by
  have hact : uncommentBySubAct sub (stdStep s (pre.foldl (stdStep s) false) L) L
      = some [pyStrip (tail1 (pyStrip L)) ++ nlStr] := by
    simp [uncommentBySubAct, h2, h3, h4]
  have hscan : scanOnce (stdStep s) (uncommentBySubAct sub) false (pre ++ L :: post)
      = (pre ++ (pyStrip (tail1 (pyStrip L)) ++ nlStr) :: post, true) := by
    rw [scanOnce_append pre (L :: post) false h1, scanOnce_cons_match hact]
    simp
  simp [uncomment_by_substring_search, hscan]

/-- Witness for C10: inside `[A]`, the free-text comment line
`"; hello world\n"` (which contains no `=`) is rewritten to `"hello world\n"`. -/
theorem c10_witness :
    ((scanOnce (stdStep (lit "A")) (uncommentBySubAct (lit "hello")) false [lit "[A]\n"]).2
        = false
      ∧ stdStep (lit "A") ([lit "[A]\n"].foldl (stdStep (lit "A")) false)
          (lit "; hello world\n") = true
      ∧ headIs (pyStrip (lit "; hello world\n")) ';' = true
      ∧ containsSub (pyStrip (lit "; hello world\n")) (lit "hello") = true)
    ∧ uncomment_by_substring_search ⟨[lit "[A]\n", lit "; hello world\n"], false⟩
        (lit "A") (lit "hello")
      = (⟨[lit "[A]\n", lit "hello world\n"], true⟩, true) := by
  refine ⟨⟨by decide, by decide, by decide, by decide⟩, ?_⟩
  have h := c10_uncomment_free_text false (lit "A") (lit "hello") (lit "; hello world\n")
    [lit "[A]\n"] [] (by decide) (by decide) (by decide) (by decide)
  simpa using h

/-- Stripping on the right ignores a trailing newline. -/
theorem rstrip_append_nl : ∀ xs : PyStr, rstrip (xs ++ ['\n']) = rstrip xs := by
  intro xs
  induction xs with
  | nil => rfl
  | cons c rest ih => simp [rstrip, ih]

/-- Stripping on the right is idempotent. -/
theorem rstrip_idem : ∀ s : PyStr, rstrip (rstrip s) = rstrip s := by
  intro s
  induction s with
  | nil => rfl
  | cons c rest ih =>
    by_cases h : (rstrip rest).isEmpty && isPySpace c
    · simp [rstrip, h]
    · simp only [rstrip, if_neg h]
      simp only [rstrip, ih, if_neg h]

/-- Stripping on the left removes characters only. -/
theorem length_lstrip_le (s : PyStr) : (lstrip s).length ≤ s.length := by
  induction s with
  | nil => simp [lstrip]
  | cons c rest ih =>
    cases h : isPySpace c
    · simp [lstrip, List.dropWhile_cons, h]
    · simp only [lstrip, List.dropWhile_cons, h, if_pos, List.length_cons]
      simp only [lstrip] at ih
      omega

/-- Stripping on the left is idempotent. -/
theorem lstrip_idem (s : PyStr) : lstrip (lstrip s) = lstrip s := by
  induction s with
  | nil => rfl
  | cons c rest ih =>
    cases h : isPySpace c
    · simp [lstrip, List.dropWhile_cons, h]
    · simpa [lstrip, List.dropWhile_cons, h] using ih

/-- The right strip of a list is one of its prefixes. -/
theorem rstrip_prefixOf_self : ∀ s : PyStr, rstrip s <+: s := by
  intro s
  induction s with
  | nil => exact List.prefix_refl []
  | cons c rest ih =>
    by_cases h : (rstrip rest).isEmpty && isPySpace c
    · simp [rstrip, h]
    · simpa [rstrip, h] using ih

/-- A list without leading whitespace keeps that property after a right strip. -/
theorem lstrip_rstrip (y : PyStr) (h : lstrip y = y) : lstrip (rstrip y) = rstrip y := by
  cases y with
  | nil => rfl
  | cons c rest =>
    have hc : isPySpace c = false := by
      by_contra hcon
      have hc' : isPySpace c = true := by
        cases hx : isPySpace c
        · exact absurd hx hcon
        · rfl
      have : lstrip (c :: rest) = lstrip rest := by simp [lstrip, hc']
      have hlen := congrArg List.length (h.symm.trans this)
      have hle := length_lstrip_le rest
      simp at hlen
      omega
    by_cases hr : (rstrip rest).isEmpty && isPySpace c
    · simp [rstrip, hr, lstrip]
    · simp [rstrip, hr, lstrip, hc]

/-- Python `strip()` is idempotent. -/
theorem pyStrip_idem (s : PyStr) : pyStrip (pyStrip s) = pyStrip s := by
  simp only [pyStrip]
  rw [lstrip_rstrip (lstrip s) (lstrip_idem s), rstrip_idem]

/-- Stripping a semicolon-prefixed line whose body is already right-stripped
and which ends in a newline keeps the semicolon and the body. -/
theorem pyStrip_semicolon (z : PyStr) (hz : rstrip z = z) :
    pyStrip (';' :: (z ++ ['\n'])) = ';' :: z := by
  have h1 : lstrip (';' :: (z ++ ['\n'])) = ';' :: (z ++ ['\n']) := by
    simp [lstrip, isPySpace]
  simp only [pyStrip, h1, rstrip, rstrip_append_nl, hz, isPySpace]
  simp

/-- A line whose trimmed form does not start with `[` neither enters nor
leaves any section: the scan state passes through it unchanged. -/
theorem stdStep_neutral (s : PyStr) (b : Bool) (L : PyStr)
    (h : headIs (pyStrip L) '[' = false) : stdStep s b L = b := by
  simp [stdStep, is_section, h]

/-- C7 — amended.  If `comment_key` hits an in-section entry line `L` that is
its own trimmed text plus a single `\n` (no leading or indenting whitespace),
is not bracket-shaped, and no line before it would match `uncomment_key` for
the same key (no earlier commented entry with that key in scan scope), then
`comment_key` rewrites `L` to `;L` and a following `uncomment_key` restores
the document byte-for-byte; with leading whitespace the restored line is the
trimmed form instead (see the counterexample). -/
theorem c7_comment_uncomment_amended (c0 : Bool) (s k L : PyStr) (pre post : List PyStr)
    (h1 : (scanOnce (stdStep s) (commentKeyAct k) false pre).2 = false)
    (h2 : (scanOnce (stdStep s) (uncommentKeyAct k) false pre).2 = false)
    (h3 : stdStep s (pre.foldl (stdStep s) false) L = true)
    (h4a : (pyStrip L).contains '=' = true)
    (h4b : headIs (pyStrip L) ';' = false)
    (h4c : headIs (pyStrip L) '#' = false)
    (h4d : keyOf (pyStrip L) = k)
    (h5 : L = pyStrip L ++ ['\n'])
    (h6 : headIs (pyStrip L) '[' = false) :
    comment_key ⟨pre ++ L :: post, c0⟩ s k = (⟨pre ++ (';' :: L) :: post, true⟩, true)
    ∧ uncomment_key ⟨pre ++ (';' :: L) :: post, true⟩ s k
      = (⟨pre ++ L :: post, true⟩, true) := by
  have hstrip : pyStrip (';' :: L) = ';' :: pyStrip L := by
    conv_lhs => rw [h5]
    exact pyStrip_semicolon (pyStrip L) (by simpa [pyStrip] using rstrip_idem (lstrip L))
  have hst : pre.foldl (stdStep s) false = true := by
    rw [stdStep_neutral s _ L h6] at h3
    exact h3
  have hmem : '=' ∈ pyStrip L := by simpa using h4a
  have h4d' : pyStrip (splitEq1 (pyStrip L)).1 = k := by simpa [keyOf] using h4d
  constructor
  · have hact : commentKeyAct k (stdStep s (pre.foldl (stdStep s) false) L) L
        = some [';' :: L] := by
      simp [commentKeyAct, h3, hmem, h4b, h4c, h4d', keyOf]
    have hscan : scanOnce (stdStep s) (commentKeyAct k) false (pre ++ L :: post)
        = (pre ++ (';' :: L) :: post, true) := by
      rw [scanOnce_append pre (L :: post) false h1, scanOnce_cons_match hact]
      simp
    simp [comment_key, hscan]
  · have hst2 : stdStep s (pre.foldl (stdStep s) false) (';' :: L) = true := by
      rw [stdStep_neutral s _ (';' :: L) (by simp [hstrip, headIs]), hst]
    have hact2 : uncommentKeyAct k (stdStep s (pre.foldl (stdStep s) false) (';' :: L))
        (';' :: L) = some [L] := by
      have htail : pyStrip (tail1 (pyStrip (';' :: L))) = pyStrip L := by
        simp only [hstrip, tail1, List.drop_succ_cons, List.drop_zero]
        exact pyStrip_idem L
      have hcontains : (pyStrip (';' :: L)).contains '=' = true := by
        simp only [hstrip, List.contains_cons]
        simp [hmem]
      simp only [uncommentKeyAct, hst2, hcontains, htail, Bool.and_true, Bool.true_and]
      simp only [hstrip, headIs, List.head?_cons]
      simp only [keyOf] at h4d
      refine by simp [keyOf, h4d, hmem, nlStr, ← h5]
    have hscan2 : scanOnce (stdStep s) (uncommentKeyAct k) false (pre ++ (';' :: L) :: post)
        = (pre ++ L :: post, true) := by
      rw [scanOnce_append pre ((';' :: L) :: post) false h2, scanOnce_cons_match hact2]
      simp
    simp [uncomment_key, hscan2]

/-- Witness for C7: commenting `Port=7777` inside `[Game]` and uncommenting it
restores the document exactly. -/
theorem c7_witness :
    ((scanOnce (stdStep (lit "Game")) (commentKeyAct (lit "Port")) false [lit "[Game]\n"]).2
        = false
      ∧ stdStep (lit "Game") ([lit "[Game]\n"].foldl (stdStep (lit "Game")) false)
          (lit "Port=7777\n") = true
      ∧ keyOf (pyStrip (lit "Port=7777\n")) = lit "Port"
      ∧ lit "Port=7777\n" = pyStrip (lit "Port=7777\n") ++ ['\n'])
    ∧ comment_key ⟨[lit "[Game]\n", lit "Port=7777\n"], false⟩ (lit "Game") (lit "Port")
        = (⟨[lit "[Game]\n", lit ";Port=7777\n"], true⟩, true)
    ∧ uncomment_key ⟨[lit "[Game]\n", lit ";Port=7777\n"], true⟩ (lit "Game") (lit "Port")
        = (⟨[lit "[Game]\n", lit "Port=7777\n"], true⟩, true) := by
  have h := c7_comment_uncomment_amended false (lit "Game") (lit "Port") (lit "Port=7777\n")
    [lit "[Game]\n"] [] (by decide) (by decide) (by decide) (by decide) (by decide)
    (by decide) (by decide) (by decide) (by decide)
  refine ⟨⟨by decide, by decide, by decide, by decide⟩, ?_, ?_⟩
  · have := h.1
    simpa using this
  · have := h.2
    simpa using this

/-- A line whose trimmed form does not start with `[` is not a section header
of any section. -/
theorem is_section_false_of_not_bracket {l sec : PyStr} (h : headIs l '[' = false) :
    is_section l sec = false := by
  simp [is_section, h]

/-- The `add_key` loop over lines that contain no header of the target
section, entered outside the section, copies everything and finds nothing. -/
theorem addKeyGo_no_section (sec k v : PyStr) : ∀ ls : List PyStr,
    (∀ l ∈ ls, is_section (pyStrip l) sec = false) →
    addKeyGo sec k v false ls = (ls, false, false) := by
  intro ls
  induction ls with
  | nil => intro _; rfl
  | cons line rest ih =>
    intro h
    have hhit : is_section (pyStrip line) sec = false := h line (List.mem_cons_self line rest)
    have hrest := ih fun l hm => h l (List.mem_cons_of_mem line hm)
    simp [addKeyGo, hhit, hrest]

/-- The `add_key` loop passes over a section-free prefix verbatim. -/
theorem addKeyGo_append_no_section (sec k v : PyStr) : ∀ (pre rest : List PyStr),
    (∀ l ∈ pre, is_section (pyStrip l) sec = false) →
    addKeyGo sec k v false (pre ++ rest)
      = (pre ++ (addKeyGo sec k v false rest).1,
         (addKeyGo sec k v false rest).2.1, (addKeyGo sec k v false rest).2.2) := by
  intro pre
  induction pre with
  | nil => intro rest _; simp
  | cons p ps ih =>
    intro rest h
    have hhit : is_section (pyStrip p) sec = false := h p (List.mem_cons_self p ps)
    have hih := ih rest fun l hm => h l (List.mem_cons_of_mem p hm)
    simp [addKeyGo, hhit, hih]

/-- One unfolding step of the `add_key` loop, stated without nested lets so a
single rewrite exposes exactly one iteration. -/
theorem addKeyGo_cons (sec k v : PyStr) (inSec : Bool) (line : PyStr) (rest : List PyStr) :
    addKeyGo sec k v inSec (line :: rest)
      = if ((inSec || is_section (pyStrip line) sec)
            && (match rest with | [] => true | r :: _ => headIs (pyStrip r) '[')) = true then
          ((k ++ '=' :: (v ++ nlStr)) :: line :: (addKeyGo sec k v false rest).1,
           is_section (pyStrip line) sec || (addKeyGo sec k v false rest).2.1, true)
        else
          (line :: (addKeyGo sec k v (inSec || is_section (pyStrip line) sec) rest).1,
           is_section (pyStrip line) sec
             || (addKeyGo sec k v (inSec || is_section (pyStrip line) sec) rest).2.1,
           (addKeyGo sec k v (inSec || is_section (pyStrip line) sec) rest).2.2) := rfl

/-- Inside the target section, the `add_key` loop walks plain lines until the
first line whose successor starts a `[`-line (or which is last) and inserts
`key=value\n` immediately before that line. -/
theorem addKeyGo_in_section (sec k v x : PyStr) : ∀ (mid post : List PyStr),
    (∀ l ∈ mid, headIs (pyStrip l) '[' = false) →
    headIs (pyStrip x) '[' = false →
    (post = [] ∨ ∃ q qs, post = q :: qs ∧ headIs (pyStrip q) '[' = true) →
    (∀ l ∈ post, is_section (pyStrip l) sec = false) →
    addKeyGo sec k v true (mid ++ x :: post)
      = (mid ++ (k ++ '=' :: (v ++ nlStr)) :: x :: post, false, true) := by
  intro mid
  induction mid with
  | nil =>
    intro post _ hx hpost hposts
    have hxhit : is_section (pyStrip x) sec = false := is_section_false_of_not_bracket hx
    have hrec := addKeyGo_no_section sec k v post hposts
    rcases hpost with rfl | ⟨q, qs, rfl, hq⟩
    · rw [List.nil_append, addKeyGo_cons]
      simp [hxhit, hrec]
    · rw [List.nil_append, addKeyGo_cons, hrec]
      simp [hxhit, hq]
  | cons m ms ih =>
    intro post hmid hx hpost hposts
    have hmhit : is_section (pyStrip m) sec = false :=
      is_section_false_of_not_bracket (hmid m (List.mem_cons_self m ms))
    have hih := ih post (fun l hm => hmid l (List.mem_cons_of_mem m hm)) hx hpost hposts
    have hbound : (match ms ++ x :: post with
        | [] => true
        | r :: _ => headIs (pyStrip r) '[') = false := by
      cases ms with
      | nil => simpa using hx
      | cons m2 ms2 => simpa using hmid m2 (List.mem_cons_of_mem m (List.mem_cons_self m2 ms2))
    rw [List.cons_append, addKeyGo_cons, hbound]
    simp only [Bool.and_false, Bool.true_or, hih, hmhit]
    simp

/-- C5 — amended.  When the target section exists, `add_key` inserts
`key=value\n` immediately BEFORE the first line — scanning from the section's
header — whose successor is a line whose trimmed text starts with `[`, or
which is the last line of the document (i.e. before the final line of the
section, not before the next header, see the counterexample); when the
section does not exist, a `\n[section]\n` block and the `key=value\n` line
are appended; in both cases the dirty flag is set. -/
theorem c5_add_key_position_amended :
    (∀ (c0 : Bool) (s k v hl x : PyStr) (pre mid post : List PyStr),
      (∀ l ∈ pre, is_section (pyStrip l) s = false) →
      is_section (pyStrip hl) s = true →
      (∀ l ∈ mid, headIs (pyStrip l) '[' = false) →
      headIs (pyStrip x) '[' = false →
      (post = [] ∨ ∃ q qs, post = q :: qs ∧ headIs (pyStrip q) '[' = true) →
      (∀ l ∈ post, is_section (pyStrip l) s = false) →
      add_key ⟨pre ++ hl :: (mid ++ x :: post), c0⟩ s k v
        = ⟨pre ++ hl :: (mid ++ (k ++ '=' :: (v ++ nlStr)) :: x :: post), true⟩)
    ∧ (∀ (c0 : Bool) (s k v : PyStr) (ls : List PyStr),
      (∀ l ∈ ls, is_section (pyStrip l) s = false) →
      add_key ⟨ls, c0⟩ s k v
        = ⟨ls ++ ['\n' :: '[' :: (s ++ [']', '\n']), k ++ '=' :: (v ++ nlStr)], true⟩) := by
  constructor
  · intro c0 s k v hl x pre mid post hpre hhl hmid hx hpost hposts
    have hmidstep := addKeyGo_in_section s k v x mid post hmid hx hpost hposts
    have hhlstep : addKeyGo s k v false (hl :: (mid ++ x :: post))
        = (hl :: (mid ++ (k ++ '=' :: (v ++ nlStr)) :: x :: post), true, true) := by
      have hbound : (match mid ++ x :: post with
          | [] => true
          | r :: _ => headIs (pyStrip r) '[') = false := by
        cases mid with
        | nil => simpa using hx
        | cons m2 ms2 => simpa using hmid m2 (List.mem_cons_self m2 ms2)
      rw [addKeyGo_cons, hbound]
      simp [hhl, hmidstep]
    have hall := addKeyGo_append_no_section s k v pre (hl :: (mid ++ x :: post)) hpre
    rw [hhlstep] at hall
    simp [add_key, hall]
  · intro c0 s k v ls h
    have := addKeyGo_no_section s k v ls h
    simp [add_key, this]

/-- Witness for C5: both branches at concrete documents — insertion before
the last line of `[A]`, and the new-block append on the empty document
(the spec's own example `add_key("Net","Timeout","30")`). -/
theorem c5_witness :
    add_key ⟨[lit "[A]\n", lit "x=1\n", lit "y=2\n"], false⟩ (lit "A") (lit "k") (lit "v")
      = ⟨[lit "[A]\n", lit "x=1\n", lit "k=v\n", lit "y=2\n"], true⟩
    ∧ add_key ⟨[], false⟩ (lit "Net") (lit "Timeout") (lit "30")
      = ⟨[lit "\n[Net]\n", lit "Timeout=30\n"], true⟩ := by
  constructor
  · have h := c5_add_key_position_amended.1 false (lit "A") (lit "k") (lit "v")
      (lit "[A]\n") (lit "y=2\n") [] [lit "x=1\n"] []
      (by decide) (by decide) (by decide) (by decide) (Or.inl rfl) (by decide)
    simpa using h
  · have h := c5_add_key_position_amended.2 false (lit "Net") (lit "Timeout") (lit "30") []
      (by decide)
    simpa using h

/-- takeWhile over an append whose first part satisfies the predicate. -/
theorem takeWhile_append_all {p : Char → Bool} : ∀ (l1 l2 : List Char),
    (∀ a ∈ l1, p a = true) → (l1 ++ l2).takeWhile p = l1 ++ l2.takeWhile p := by
  intro l1
  induction l1 with
  | nil => intro l2 _; simp
  | cons c t ih =>
    intro l2 h
    have hc := h c (List.mem_cons_self c t)
    simp [List.takeWhile_cons, hc, ih l2 fun a ha => h a (List.mem_cons_of_mem c ha)]

/-- dropWhile over an append whose first part satisfies the predicate. -/
theorem dropWhile_append_all {p : Char → Bool} : ∀ (l1 l2 : List Char),
    (∀ a ∈ l1, p a = true) → (l1 ++ l2).dropWhile p = l2.dropWhile p := by
  intro l1
  induction l1 with
  | nil => intro l2 _; simp
  | cons c t ih =>
    intro l2 h
    have hc := h c (List.mem_cons_self c t)
    simp [List.dropWhile_cons, hc, ih l2 fun a ha => h a (List.mem_cons_of_mem c ha)]

/-- A left-stripped nonempty list starts with a non-whitespace character, so a
left strip leaves any extension of it alone. -/
theorem lstrip_append_of_stripped : ∀ (l : PyStr), lstrip l = l → l ≠ [] →
    ∀ z : PyStr, lstrip (l ++ z) = l ++ z := by
  intro l hl hne z
  cases l with
  | nil => exact absurd rfl hne
  | cons c t =>
    have hc : isPySpace c = false := by
      cases hx : isPySpace c
      · rfl
      · exfalso
        have h1 : lstrip (c :: t) = lstrip t := by simp [lstrip, hx]
        have hlen := congrArg List.length (hl.symm.trans h1)
        have hle := length_lstrip_le t
        simp at hlen
        omega
    simp [lstrip, List.dropWhile_cons, hc]

/-- Stripping on the right distributes over an append: it either consumes the
whole second part and continues into the first, or strips the second alone. -/
theorem rstrip_append : ∀ xs ys : PyStr,
    rstrip (xs ++ ys) = if rstrip ys = [] then rstrip xs else xs ++ rstrip ys := by
  intro xs
  induction xs with
  | nil => intro ys; by_cases h : rstrip ys = [] <;> simp [rstrip, h]
  | cons c t ih =>
    intro ys
    by_cases h : rstrip ys = []
    · simp [rstrip, List.cons_append, ih ys, h]
    · have hne : t ++ rstrip ys ≠ [] := fun hcon => h (List.append_eq_nil.mp hcon).2
      simp [rstrip, List.cons_append, ih ys, h, List.isEmpty_iff, hne]

/-- The components of `pyStrip s = s`: both one-sided strips fix `s`. -/
theorem strip_parts_of_pyStrip (s : PyStr) (h : pyStrip s = s) :
    lstrip s = s ∧ rstrip s = s := by
  have h1 : (rstrip (lstrip s)).length ≤ (lstrip s).length :=
    (rstrip_prefixOf_self (lstrip s)).length_le
  have h2 : (lstrip s).length ≤ s.length := length_lstrip_le s
  have h3 : (rstrip (lstrip s)).length = s.length := by rw [show rstrip (lstrip s) = s from h]
  have hll : (lstrip s).length = s.length := by omega
  have hl : lstrip s = s := by
    cases s with
    | nil => rfl
    | cons c t =>
      cases hx : isPySpace c
      · simp [lstrip, List.dropWhile_cons, hx]
      · exfalso
        have : lstrip (c :: t) = lstrip t := by simp [lstrip, hx]
        have := congrArg List.length this
        have hle := length_lstrip_le t
        simp [hll] at this
        omega
  refine ⟨hl, ?_⟩
  have : rstrip (lstrip s) = s := h
  rwa [hl] at this

/-- Stripping the canonical entry line `key=value\n` built by the source from
a trimmed nonempty key and a trimmed value yields `key=value`. -/
theorem pyStrip_entry (k v : PyStr) (hkl : lstrip k = k) (hknil : k ≠ [])
    (hvr : rstrip v = v) :
    pyStrip (k ++ '=' :: (v ++ ['\n'])) = k ++ '=' :: v := by
  have h1 : lstrip (k ++ '=' :: (v ++ ['\n'])) = k ++ '=' :: (v ++ ['\n']) :=
    lstrip_append_of_stripped k hkl hknil _
  have h2 : rstrip ('=' :: (v ++ ['\n'])) = '=' :: v := by
    have hv1 : rstrip (v ++ ['\n']) = v := by rw [rstrip_append_nl, hvr]
    simp [rstrip, hv1, isPySpace]
  have h3 : rstrip (k ++ '=' :: (v ++ ['\n'])) = k ++ '=' :: v := by
    rw [rstrip_append k ('=' :: (v ++ ['\n'])), h2]
    simp
  simp [pyStrip, h1, h3]

/-- Splitting the canonical entry line `key=value` on its first `=` recovers
the key and the value when the key contains no `=`. -/
theorem splitEq_entry (k v : PyStr) (hkeq : ∀ a ∈ k, (a != '=') = true) :
    splitEq1 (k ++ '=' :: v) = (k, v) := by
  unfold splitEq1
  rw [takeWhile_append_all k ('=' :: v) hkeq, dropWhile_append_all k ('=' :: v) hkeq]
  simp

/-- The head of an append with a nonempty first part is the head of that part. -/
theorem headIs_append (l z : PyStr) (c : Char) (h : l ≠ []) :
    headIs (l ++ z) c = headIs l c := by
  cases l with
  | nil => exact absurd rfl h
  | cons a t => simp [headIs]

/-- For a line whose trimmed text starts with `[`, the trimmed key parsed from
it also starts with `[`. -/
theorem bracket_key (z : PyStr) (h : headIs z '[' = true) :
    headIs (pyStrip (splitEq1 z).1) '[' = true := by
  cases z with
  | nil => simp [headIs] at h
  | cons c t =>
    have hc : c = '[' := by simpa [headIs] using h
    subst hc
    have htake : (splitEq1 ('[' :: t)).1 = '[' :: t.takeWhile (· != '=') := by
      simp [splitEq1, List.takeWhile_cons]
    rw [htake]
    have hl : lstrip ('[' :: t.takeWhile (· != '=')) = '[' :: t.takeWhile (· != '=') := by
      simp [lstrip, List.dropWhile_cons, isPySpace]
    simp only [pyStrip, hl, rstrip, isPySpace]
    simp [headIs]

/-- A head that is one character is not another. -/
theorem headIs_distinct {z : PyStr} {c c' : Char} (h : headIs z c = true) (hne : c ≠ c') :
    headIs z c' = false := by
  cases z with
  | nil => simp [headIs] at h
  | cons a t =>
    have ha : a = c := by simpa [headIs] using h
    subst ha
    simpa [headIs] using hne

/-- Scan predicate for the replace path of `set_key`: some in-section line,
tracked with the shared section state, contains `=`, is not `;`-commented, and
its trimmed key equals `key`. -/
def hasUncMatch (sec key : PyStr) : Bool → List PyStr → Bool
  | _, [] => false
  | inSec, line :: rest =>
    let stripped := pyStrip line
    let inSec1 := stdStep sec inSec line
    (inSec1 && stripped.contains '=' && !(headIs stripped ';')
        && (pyStrip (splitEq1 stripped).1 == key))
    || hasUncMatch sec key inSec1 rest

/-- Once `found` is set, the `set_key` loop reports it at the end. -/
theorem setKeyGo_found_mono (s k v : PyStr) : ∀ (ls : List PyStr) (b ch : Bool),
    (setKeyGo s k v b true ch ls).2.1 = true := by
  intro ls
  induction ls with
  | nil => intro b ch; rfl
  | cons line rest ih =>
    intro b ch
    simp only [setKeyGo]
    repeat' split
    all_goals simpa using ih _ _

/-- Facts about the canonical entry line `key=value\n` written by `set_key`. -/
theorem entry_line_facts (k v : PyStr) (hkl : lstrip k = k) (hkr : rstrip k = k)
    (hknil : k ≠ []) (hkeq : ∀ a ∈ k, (a != '=') = true)
    (hksemi : headIs k ';' = false) (hkbr : headIs k '[' = false)
    (hvl : lstrip v = v) (hvr : rstrip v = v) :
    pyStrip (k ++ '=' :: (v ++ nlStr)) = k ++ '=' :: v
    ∧ (k ++ '=' :: v).contains '=' = true
    ∧ headIs (k ++ '=' :: v) ';' = false
    ∧ headIs (k ++ '=' :: v) '[' = false
    ∧ pyStrip (splitEq1 (k ++ '=' :: v)).1 = k
    ∧ pyStrip (splitEq1 (k ++ '=' :: v)).2 = v := by
  have hsplit := splitEq_entry k v hkeq
  refine ⟨by simpa [nlStr] using pyStrip_entry k v hkl hknil hvr, by simp, ?_, ?_, ?_, ?_⟩
  · rw [headIs_append k ('=' :: v) ';' hknil]; exact hksemi
  · rw [headIs_append k ('=' :: v) '[' hknil]; exact hkbr
  · rw [hsplit]; simp [pyStrip, hkl, hkr]
  · rw [hsplit]; simp [pyStrip, hvl, hvr]

/-- If the head line of a scan is not an uncommented key match, the match the
predicate promises lies in the tail. -/
theorem hasUncMatch_rest {s k : PyStr} {b : Bool} {line : PyStr} {rest : List PyStr}
    (h : hasUncMatch s k b (line :: rest) = true)
    (hno : (stdStep s b line && (pyStrip line).contains '='
        && !(headIs (pyStrip line) ';')
        && (pyStrip (splitEq1 (pyStrip line)).1 == k)) = false) :
    hasUncMatch s k (stdStep s b line) rest = true := by
  simp only [hasUncMatch] at h
  rw [hno] at h
  simpa using h

/-- The loop of `set_key` followed by the loop of `get_key` returns the new
value whenever some in-section uncommented entry carries the key, for a
trimmed nonempty key free of `=`, `;`, `[` and a trimmed value. -/
theorem setKeyGo_getKeyGo (s k v : PyStr)
    (hkl : lstrip k = k) (hkr : rstrip k = k) (hknil : k ≠ [])
    (hkeq : ∀ a ∈ k, (a != '=') = true)
    (hksemi : headIs k ';' = false) (hkbr : headIs k '[' = false)
    (hvl : lstrip v = v) (hvr : rstrip v = v) :
    ∀ (ls : List PyStr) (b fd ch : Bool), hasUncMatch s k b ls = true →
      getKeyGo s k b (setKeyGo s k v b fd ch ls).1 = some v := by
  obtain ⟨hE1, hE2, hE3, hE4, hE5, hE6⟩ :=
    entry_line_facts k v hkl hkr hknil hkeq hksemi hkbr hvl hvr
  intro ls
  induction ls with
  | nil => intro b fd ch h; simp [hasUncMatch] at h
  | cons line rest ih =>
    intro b fd ch h
    by_cases hc1 : (stdStep s b line && (pyStrip line).contains '=') = true
    · have hsb : stdStep s b line = true := by
        cases hx : stdStep s b line
        · rw [hx] at hc1; simp at hc1
        · rfl
      have hct : (pyStrip line).contains '=' = true := by
        cases hx : (pyStrip line).contains '='
        · rw [hx] at hc1; simp at hc1
        · rfl
      have hmem : '=' ∈ pyStrip line := by simpa using hct
      by_cases hcm : headIs (pyStrip line) ';' = true
      · -- a commented line
        have hnb : headIs (pyStrip line) '[' = false := headIs_distinct hcm (by decide)
        have hb : b = true := by
          have hx := stdStep_neutral s b line hnb
          rw [hx] at hsb
          exact hsb
        subst hb
        by_cases hc2 : (pyStrip (splitEq1 (pyStrip (tail1 (pyStrip line)))).1 == k) = true
        · -- commented match: the line is destroyed to the bare string `;`
          have hrest : hasUncMatch s k true rest = true := by
            have hx := hasUncMatch_rest h (by simp [hcm])
            rwa [hsb] at hx
          have hset : (setKeyGo s k v true fd ch (line :: rest)).1
              = [';'] :: (setKeyGo s k v true true
                  (!(pyStrip (splitEq1 (pyStrip (tail1 (pyStrip line)))).2 == v)) rest).1 := by
            simp only [setKeyGo]
            simp [hsb, hct, hmem, hcm, hc2]
          rw [hset]
          have hg : ∀ X : List PyStr, getKeyGo s k true ([';'] :: X) = getKeyGo s k true X := by
            intro X
            have h1 : pyStrip [';'] = [';'] := by decide
            have h2 : stdStep s true [';'] = true := stdStep_neutral s true [';'] (by decide)
            have h3 : ([';'] : PyStr).contains '=' = false := by decide
            simp only [getKeyGo]
            simp [h1, h2, h3]
          rw [hg]
          exact ih true true _ hrest
        · -- commented non-match: the line is copied verbatim
          have hrest : hasUncMatch s k true rest = true := by
            have hx := hasUncMatch_rest h (by simp [hcm])
            rwa [hsb] at hx
          have hset : (setKeyGo s k v true fd ch (line :: rest)).1
              = line :: (setKeyGo s k v true fd ch rest).1 := by
            simp only [setKeyGo]
            simp [hsb, hct, hmem, hcm, hc2]
          rw [hset]
          have hc2p : ¬(pyStrip (splitEq1 (pyStrip (tail1 (pyStrip line)))).1 = k) := by
            simpa using hc2
          simp only [getKeyGo]
          simp [hsb, hct, hmem, hcm, hc2p]
          exact ih true fd ch hrest
      · by_cases hc2 : (pyStrip (splitEq1 (pyStrip line)).1 == k) = true
        · -- the uncommented match: the line becomes `key=value\n`
          have hnb : headIs (pyStrip line) '[' = false := by
            cases hx : headIs (pyStrip line) '[' with
            | false => rfl
            | true =>
              exfalso
              have hbk := bracket_key (pyStrip line) hx
              have heq : pyStrip (splitEq1 (pyStrip line)).1 = k := by simpa using hc2
              rw [heq, hkbr] at hbk
              exact absurd hbk (by simp)
          have hb : b = true := by
            have hx := stdStep_neutral s b line hnb
            rw [hx] at hsb
            exact hsb
          subst hb
          have hset : (setKeyGo s k v true fd ch (line :: rest)).1
              = (k ++ '=' :: (v ++ nlStr))
                  :: (setKeyGo s k v true true
                      (!(pyStrip (splitEq1 (pyStrip line)).2 == v)) rest).1 := by
            simp only [setKeyGo]
            simp [hsb, hct, hmem, hcm, hc2]
          rw [hset]
          have hscN : stdStep s true (k ++ '=' :: (v ++ nlStr)) = true := by
            apply stdStep_neutral
            rw [hE1]
            exact hE4
          have hE2m : '=' ∈ k ++ '=' :: v := by simp
          simp only [getKeyGo]
          rw [hE1]
          simp [hscN, hE1, hE2m, hE3, hE5, hE6]
        · -- uncommented non-match: the line is copied verbatim
          have hrest := hasUncMatch_rest h (by simp [hcm, hc2])
          have hset : (setKeyGo s k v b fd ch (line :: rest)).1
              = line :: (setKeyGo s k v (stdStep s b line) fd ch rest).1 := by
            simp only [setKeyGo]
            simp [hsb, hct, hmem, hcm, hc2]
          rw [hset]
          have hc2p : ¬(pyStrip (splitEq1 (pyStrip line)).1 = k) := by simpa using hc2
          have hrest2 : hasUncMatch s k true rest = true := by
            rwa [hsb] at hrest
          simp only [getKeyGo]
          simp [hsb, hct, hmem, hcm, hc2p]
          exact ih true fd ch hrest2
    · -- the line is not considered by either scan
      have hcb : (stdStep s b line && (pyStrip line).contains '=') = false := by
        cases hx : (stdStep s b line && (pyStrip line).contains '=')
        · rfl
        · exact absurd hx hc1
      have hrest := hasUncMatch_rest h (by simp only [hcb, Bool.false_and])
      have hnand : ¬(stdStep s b line = true ∧ '=' ∈ pyStrip line) := by
        intro hx
        have hx2 : (pyStrip line).contains '=' = true := by simpa using hx.2
        rw [hx.1, hx2] at hcb
        simp at hcb
      have hset : (setKeyGo s k v b fd ch (line :: rest)).1
          = line :: (setKeyGo s k v (stdStep s b line) fd ch rest).1 := by
        simp only [setKeyGo]
        simp [hnand]
      rw [hset]
      simp only [getKeyGo]
      simp [hnand]
      exact ih _ fd ch hrest

/-- When some in-section uncommented entry carries the key, the `set_key`
loop reports `found` and so `set_key` takes its replace path. -/
theorem setKeyGo_found (s k v : PyStr) : ∀ (ls : List PyStr) (b fd ch : Bool),
    hasUncMatch s k b ls = true → (setKeyGo s k v b fd ch ls).2.1 = true := by
  intro ls
  induction ls with
  | nil => intro b fd ch h; simp [hasUncMatch] at h
  | cons line rest ih =>
    intro b fd ch h
    by_cases hc1 : (stdStep s b line && (pyStrip line).contains '=') = true
    · have hsb : stdStep s b line = true := by
        cases hx : stdStep s b line
        · rw [hx] at hc1; simp at hc1
        · rfl
      have hct : (pyStrip line).contains '=' = true := by
        cases hx : (pyStrip line).contains '='
        · rw [hx] at hc1; simp at hc1
        · rfl
      have hmem : '=' ∈ pyStrip line := by simpa using hct
      by_cases hcm : headIs (pyStrip line) ';' = true
      · by_cases hc2 : (pyStrip (splitEq1 (pyStrip (tail1 (pyStrip line)))).1 == k) = true
        · simp only [setKeyGo]
          simp [hsb, hct, hmem, hcm, hc2]
          exact setKeyGo_found_mono s k v rest _ _
        · have hrest : hasUncMatch s k true rest = true := by
            have hx := hasUncMatch_rest h (by simp [hcm])
            rwa [hsb] at hx
          simp only [setKeyGo]
          simp [hsb, hct, hmem, hcm, hc2]
          exact ih true fd ch hrest
      · by_cases hc2 : (pyStrip (splitEq1 (pyStrip line)).1 == k) = true
        · simp only [setKeyGo]
          simp [hsb, hct, hmem, hcm, hc2]
          exact setKeyGo_found_mono s k v rest _ _
        · have hrest : hasUncMatch s k true rest = true := by
            have hx := hasUncMatch_rest h (by simp [hcm, hc2])
            rwa [hsb] at hx
          simp only [setKeyGo]
          simp [hsb, hct, hmem, hcm, hc2]
          exact ih true fd ch hrest
    · have hcb : (stdStep s b line && (pyStrip line).contains '=') = false := by
        cases hx : (stdStep s b line && (pyStrip line).contains '=')
        · rfl
        · exact absurd hx hc1
      have hrest := hasUncMatch_rest h (by simp only [hcb, Bool.false_and])
      have hnand : ¬(stdStep s b line = true ∧ '=' ∈ pyStrip line) := by
        intro hx
        have hx2 : (pyStrip line).contains '=' = true := by simpa using hx.2
        rw [hx.1, hx2] at hcb
        simp at hcb
      simp only [setKeyGo]
      simp [hnand]
      exact ih _ fd ch hrest

/-- C1 — amended.  `set_key(s,k,v)` then `get_key(s,k,d)` returns `v`
provided the document already holds at least one in-section UNCOMMENTED entry
with key `k` (so the replace path runs), and `k`, `v` are trimmed, `k` is
nonempty and free of `=` and does not begin with `;` or `[`.  Without the
uncommented-entry premise the claim fails: a commented-only match is destroyed
to a bare `;` and `get_key` returns the default (see the counterexample), and
the `add_key` fall-back can drop the new line outside the section. -/
theorem c1_set_then_get_amended (p : UnrealConfigParser) (s k v d : PyStr)
    (hk : pyStrip k = k) (hknil : k ≠ [])
    (hkeq : k.contains '=' = false)
    (hksemi : headIs k ';' = false) (hkbr : headIs k '[' = false)
    (hv : pyStrip v = v)
    (hm : hasUncMatch s k false p.content = true) :
    get_key (set_key p s k v) s k d = v := by
  obtain ⟨hkl, hkr⟩ := strip_parts_of_pyStrip k hk
  obtain ⟨hvl, hvr⟩ := strip_parts_of_pyStrip v hv
  have hkeq' : ∀ a ∈ k, (a != '=') = true := by
    intro a ha
    have hne : a ≠ '=' := by
      intro e
      subst e
      have hcon : k.contains '=' = true := by simpa using ha
      rw [hcon] at hkeq
      simp at hkeq
    simpa using hne
  have hfound : (setKeyGo s k v false false p.changed p.content).2.1 = true :=
    setKeyGo_found s k v p.content false false p.changed hm
  have hmain := setKeyGo_getKeyGo s k v hkl hkr hknil hkeq' hksemi hkbr hvl hvr
    p.content false false p.changed hm
  simp only [set_key, hfound, if_true, get_key]
  simp [hmain]

/-- Witness for C1: on `"[Game]\nPort=7777\n"`, `set_key("Game","Port","8000")`
then `get_key("Game","Port","")` returns `"8000"` — the spec's own example. -/
theorem c1_witness :
    (pyStrip (lit "Port") = lit "Port" ∧ hasUncMatch (lit "Game") (lit "Port") false
        [lit "[Game]\n", lit "Port=7777\n"] = true)
    ∧ get_key (set_key ⟨[lit "[Game]\n", lit "Port=7777\n"], false⟩
        (lit "Game") (lit "Port") (lit "8000")) (lit "Game") (lit "Port") []
      = lit "8000" :=
  ⟨⟨by decide, by decide⟩,
   c1_set_then_get_amended ⟨[lit "[Game]\n", lit "Port=7777\n"], false⟩
     (lit "Game") (lit "Port") (lit "8000") []
     (by decide) (by decide) (by decide) (by decide) (by decide) (by decide) (by decide)⟩

end VeinConfig
